import Mathlib

/-!
# oni-plugin-tslint: the diagnostic reconciler of `lib/index.js`

A shallow embedding of `lib/index.js`.

* JavaScript objects used as dictionaries (`lastErrors`, the `errors` object built by
  `executeTsLint`) are insertion-ordered association lists with distinct keys (`JsObject`).
  `Object.keys` lists array-index keys first in ascending numeric order and the other keys in
  insertion order (`JsObject.keys`).
* The editor host and the Node library are a record of functions (`Host`): `path.extname`,
  `path.dirname`, `path.basename`, `path.normalize`, `findUp` and `Oni.process.execNodeScript`.
* Every `async` function is run to completion and returns the new module state together with
  the list of effects it performed, in order (`Effect`). Overlapping invocations are not
  modelled.
* The dictionary that `executeTsLint` builds starts as `{}` and is keyed by the names the
  linter reports, so the lookup `prev[curr.file]` of the reduce can fall through to
  `Object.prototype` (`constructor`, `__proto__`, ...); the inherited member is truthy and has
  no `push`, the callback throws and the promise never settles (`reduceStep`).
* The lookups `lastErrors[f]`, `errors[f]` and `errors[fileName]` of the two lint functions are
  own-property lookups (`JsObject.get`): their keys are keys stored in `lastErrors` or the base
  name of an admitted path, and no dictionary that `executeTsLint` resolves to has a key
  that names a member of `Object.prototype`.
-/

namespace OniTslint

/-! ## Data model -/

/-- A `{line, character}` position of the linter output. -/
structure Position where
  line : Int
  character : Int
  deriving DecidableEq, Repr

/-- One element of the JSON array written by the linter. -/
structure Failure where
  ruleName : String
  failure : String
  name : String
  startPosition : Position
  endPosition : Position
  deriving DecidableEq, Repr

/-- The `range` object of a diagnostic. -/
structure Range where
  start : Position
  end_ : Position
  deriving DecidableEq, Repr

/-- The object pushed at lines 183-188: `{message, range, severity, type}`; `type := none`
is JavaScript `null`. -/
structure Diagnostic where
  message : String
  range : Range
  severity : Nat
  type : Option String
  deriving DecidableEq, Repr

/-- The intermediate object built at lines 163-178. -/
structure ErrorWithFileName where
  type : Option String
  file : String
  message : String
  severity : Nat
  range : Range
  deriving DecidableEq, Repr

/-- The JavaScript values stored in the dictionaries and handed to `setErrors`. -/
inductive JsValue where
  | undefined
  | null
  | array (items : List Diagnostic)
  deriving DecidableEq, Repr

/-- JavaScript truthiness: `undefined` and `null` are falsy, every array (the empty one
included) is truthy. -/
def JsValue.truthy : JsValue → Bool
  | .undefined => false
  | .null => false
  | .array _ => true

/-- The expression `v || []` for a dictionary value `v`. -/
def JsValue.orEmpty : JsValue → List Diagnostic
  | .array items => items
  | _ => []

/-! ## Objects used as dictionaries -/

/-- An object with string keys: its own properties in creation order, keys distinct. -/
structure JsObject where
  entries : List (String × JsValue)
  nodupKeys : (entries.map Prod.fst).Nodup

namespace JsObject

instance : DecidableEq JsObject := fun a b =>
  decidable_of_iff (a.entries = b.entries) (by cases a; cases b; simp)

/-- The object literal `{}`. -/
def empty : JsObject := ⟨[], List.nodup_nil⟩

/-- The own property names in creation order. -/
def ownKeys (o : JsObject) : List String := o.entries.map Prod.fst

/-- First value bound to `k` in an entry list, `undefined` when there is none. -/
def lookup (k : String) : List (String × JsValue) → JsValue
  | [] => .undefined
  | e :: rest => if e.1 = k then e.2 else lookup k rest

/-- The expression `o[k]`. -/
def get (o : JsObject) (k : String) : JsValue := lookup k o.entries

/-- The statement `o[k] = v`: an existing property keeps its place, a new one is added
last. -/
def set (o : JsObject) (k : String) (v : JsValue) : JsObject :=
  if h : k ∈ o.entries.map Prod.fst then
    ⟨o.entries.map (fun e => if e.1 = k then (e.1, v) else e), by
      have hfst : (o.entries.map fun e => if e.1 = k then (e.1, v) else e).map Prod.fst
          = o.entries.map Prod.fst := by
        rw [List.map_map]
        apply List.map_congr_left
        intro e _
        by_cases he : e.1 = k <;> simp [he]
      rw [hfst]
      exact o.nodupKeys⟩
  else
    ⟨o.entries ++ [(k, v)], by
      rw [List.map_append, List.nodup_append]
      refine ⟨o.nodupKeys, List.nodup_singleton _, ?_⟩
      intro a ha hb
      simp only [List.map_cons, List.map_nil, List.mem_singleton] at hb
      subst hb
      exact h ha⟩

/-- Numeric value of a string of decimal digits. -/
def digitsValue (cs : List Char) : Nat :=
  cs.foldl (fun n c => 10 * n + (c.toNat - 48)) 0

/-- Whether a property name is an array index: the canonical decimal form of an integer
below `2^32 - 1`. -/
def isArrayIndex (k : String) : Bool :=
  match k.data with
  | [] => false
  | [c] => c.isDigit
  | c :: cs =>
    c.isDigit && c != '0' && cs.all Char.isDigit && decide (digitsValue (c :: cs) < 4294967295)

/-- Numeric order on array-index keys. -/
def indexLe (a b : String) : Prop := digitsValue a.data ≤ digitsValue b.data

instance : DecidableRel indexLe := fun a b =>
  inferInstanceAs (Decidable (digitsValue a.data ≤ digitsValue b.data))

/-- The array `Object.keys(o)`: array-index keys ascending, then the other keys in creation
order. -/
def keys (o : JsObject) : List String :=
  (o.ownKeys.filter isArrayIndex).insertionSort indexLe ++
    o.ownKeys.filter (fun k => !isArrayIndex k)

end JsObject

/-! ## The host and the module state -/

/-- Outcome of `findUp(name, {cwd})`: the promise rejects, or resolves to a path or to
`undefined`. -/
inductive Discovery where
  | rejects
  | resolves (found : Option String)
  deriving DecidableEq, Repr

/-- What the callback of `execNodeScript` receives: a truthy `err`; a `stdout` on which
`JSON.parse` or the conversion throws; or a `stdout` holding a JSON array of failures. -/
inductive LinterOutcome where
  | failed
  | malformed
  | stdout (lintErrors : List Failure)
  deriving DecidableEq, Repr

/-- The collaborators of the module: the Node `path` functions, `find-up` and the process
runner of the editor, with the constant `tslintPath`. -/
structure Host where
  extname : String → String
  dirname : String → String
  basename : String → String
  normalize : String → String
  tslintPath : String
  findUp : String → String → Discovery
  execNodeScript : String → List String → String → LinterOutcome

/-- The buffer object handed to the subscribers; `filePath` may be missing. -/
structure BufferEvent where
  filePath : Option String
  deriving DecidableEq, Repr

/-- The observable effects of the module, in the order they happen. -/
inductive Effect where
  | consoleWarn (message : String)
  | consoleError
  | execNodeScript (script : String) (args : List String) (cwd : String)
  | setErrors (source : String) (file : String) (errors : JsValue) (color : String)
  deriving DecidableEq, Repr

/-- The module-level variables `lastErrors` and `lastArgs`. -/
structure PluginState where
  lastErrors : JsObject
  lastArgs : Option BufferEvent

/-- The state at load time: `lastErrors = {}`, `lastArgs = null`. -/
def PluginState.initial : PluginState := ⟨JsObject.empty, none⟩

/-! ## The functions of `lib/index.js` -/

/-- The constant `allowedFileTypes`. -/
def allowedFileTypes : List String := [".js", ".jsx"]

/-- The function `shouldNotLint`. -/
def shouldNotLint (h : Host) (file : String) : Bool :=
  let extension := h.extname file
  let allowed := allowedFileTypes.contains extension
  !allowed

/-- The function `getCurrentWorkingDirectory`. -/
def getCurrentWorkingDirectory (h : Host) (args : String) : String := h.dirname args

/-- The function `getTsConfig`; a rejection of `findUp` is rethrown. -/
def getTsConfig (h : Host) (workingDirectory : String) : Discovery :=
  h.findUp "tsconfig.json" workingDirectory

/-- The function `getLintConfig`; a rejection of `findUp` is rethrown. -/
def getLintConfig (h : Host) (workingDirectory : String) : Discovery :=
  h.findUp "tslint.json" workingDirectory

/-- The `setErrors` calls of a trace that name the file `f`. -/
def callsFor (f : String) (trace : List Effect) : List Effect :=
  trace.filter fun e =>
    match e with
    | .setErrors _ file _ _ => decide (file = f)
    | _ => false

/-- The linter invocations of a trace. -/
def linterCalls (trace : List Effect) : List Effect :=
  trace.filter fun e =>
    match e with
    | .execNodeScript _ _ _ => true
    | _ => false

/-- The `setErrors` calls of a trace. -/
def publishCalls (trace : List Effect) : List Effect :=
  trace.filter fun e =>
    match e with
    | .setErrors _ _ _ _ => true
    | _ => false

/-- The argument list `processArgs` built at lines 136-145 of `executeTsLint`. -/
def processArgs (configPath : String) (args : List String) (autoFix : Bool) : List String :=
  let processArgs : List String := []
  let processArgs := if autoFix then processArgs ++ ["--fix"] else processArgs
  let processArgs := processArgs ++ ["--force", "--format", "json"]
  let processArgs := processArgs ++ ["--config", configPath]
  processArgs ++ args

/-- The callback of `lintErrors.map` at lines 163-178. -/
def toErrorWithFileName (h : Host) (e : Failure) : ErrorWithFileName :=
  { type := none
    file := h.normalize e.name
    message := "[" ++ e.ruleName ++ "] " ++ e.failure
    severity := 2
    range :=
      { start := { line := e.startPosition.line, character := e.startPosition.character }
        end_ := { line := e.endPosition.line, character := e.endPosition.character } } }

/-- The names of the members of `Object.prototype`, which every object literal inherits. -/
def objectPrototypeMembers : List String :=
  ["constructor", "__defineGetter__", "__defineSetter__", "hasOwnProperty",
    "__lookupGetter__", "__lookupSetter__", "isPrototypeOf", "propertyIsEnumerable",
    "toString", "valueOf", "__proto__", "toLocaleString"]

/-- Whether the lookup `o[k]` finds no own property and falls through to a member of
`Object.prototype`: a function, or for `__proto__` the prototype object; truthy, not an
array. -/
def JsObject.inherits (o : JsObject) (k : String) : Bool :=
  !o.ownKeys.contains k && objectPrototypeMembers.contains k

/-- Lines 181-190 when `prev[curr.file]` is an own property or `undefined`: the array is
created if missing and the diagnostic pushed. -/
def pushStep (prev : JsObject) (curr : ErrorWithFileName) : JsObject :=
  let prev := prev.set curr.file (.array (prev.get curr.file).orEmpty)
  prev.set curr.file
    (.array ((prev.get curr.file).orEmpty ++
      [{ message := curr.message, range := curr.range, severity := curr.severity,
         type := curr.type }]))

/-- The callback of `errorsWithFileName.reduce` at lines 180-191; `none` when it throws:
an inherited `prev[curr.file]` survives `|| []` and has no `push`. -/
def reduceStep (prev : JsObject) (curr : ErrorWithFileName) : Option JsObject :=
  if prev.inherits curr.file then none else some (pushStep prev curr)

/-- The call `errorsWithFileName.reduce(callback, prev)`; `none` when the callback throws. -/
def reduceAll : List ErrorWithFileName → JsObject → Option JsObject
  | [], prev => some prev
  | curr :: rest, prev =>
    match reduceStep prev curr with
    | none => none
    | some next => reduceAll rest next

/-- The value `errors` computed from the parsed linter output at lines 163-191; `none` when
the reduce throws. -/
def groupErrors (h : Host) (lintErrors : List Failure) : Option JsObject :=
  reduceAll (lintErrors.map (toErrorWithFileName h)) JsObject.empty

/-- The function `executeTsLint`: the effects performed and the value the promise resolves
to, `none` when it rejects or never settles. -/
def executeTsLint (h : Host) (configPath : String) (args : List String)
    (workingDirectory : String) (autoFix : Bool) : List Effect × Option JsObject :=
  let processArgs := processArgs configPath args autoFix
  let call := Effect.execNodeScript h.tslintPath processArgs workingDirectory
  match h.execNodeScript h.tslintPath processArgs workingDirectory with
  | .failed => ([call, .consoleError], none)
  | .malformed => ([call], none)
  | .stdout lintErrors => ([call], groupErrors h lintErrors)

/-- The warning logged when no lint configuration is found. -/
def noConfigWarning : String := "[PLUGIN] No tslint.json found; not running tslint."

/-- Lines 64-70 of `doLintForFile`: publish the diagnostics of the one file and mark it as
cleared when there are none. -/
def reconcileSingleFile (s : PluginState) (filePath : String) (fileErrors : List Diagnostic) :
    PluginState × List Effect :=
  let published := [Effect.setErrors "tslint-ts" filePath (.array fileErrors) "yellow"]
  if fileErrors.length = 0 then
    ({ s with lastErrors := s.lastErrors.set filePath .null }, published)
  else
    (s, published)

/-- The function `doLintForFile`. -/
def doLintForFile (h : Host) (s : PluginState) (args : BufferEvent) :
    PluginState × List Effect :=
  match args.filePath with
  | none => (s, [])
  | some argsFilePath =>
    if argsFilePath = "" then (s, [])
    else if shouldNotLint h argsFilePath then (s, [])
    else
      let currentWorkingDirectory := getCurrentWorkingDirectory h argsFilePath
      match getLintConfig h currentWorkingDirectory with
      | .rejects => (s, [.consoleWarn noConfigWarning])
      | .resolves none => (s, [.consoleWarn noConfigWarning])
      | .resolves (some filePath) =>
        if filePath = "" then (s, [.consoleWarn noConfigWarning])
        else
          match executeTsLint h filePath [argsFilePath] currentWorkingDirectory false with
          | (effects, none) => (s, effects)
          | (effects, some errors) =>
            let fileName := h.basename argsFilePath
            let fileErrors := (errors.get fileName).orEmpty
            let (s, published) := reconcileSingleFile s argsFilePath fileErrors
            (s, effects ++ published)

/-- The calls of the first loop at lines 110-112: every key of `errors` is published. -/
def sendUpdated (errors : JsObject) : List Effect :=
  errors.keys.map fun f => Effect.setErrors "tslint-ts" f (errors.get f) "yellow"

/-- The calls of the second loop at lines 115-119: a key of `lastErrors` is cleared when its
old value is truthy and it has no truthy value in `errors`. -/
def sendCleared (lastErrors errors : JsObject) : List Effect :=
  (lastErrors.keys.filter fun f => (lastErrors.get f).truthy && !(errors.get f).truthy).map
    fun f => Effect.setErrors "tslint-ts" f (.array []) "yellow"

/-- Lines 109-121 of `doLintForProject`: publish the new set, clear what disappeared, adopt
the new set. -/
def reconcile (s : PluginState) (errors : JsObject) : PluginState × List Effect :=
  ({ s with lastErrors := errors }, sendUpdated errors ++ sendCleared s.lastErrors errors)

/-- The value of `processArgs` built at lines 96-101 of `doLintForProject`. -/
def lintTarget (project : Option String) (argsFilePath : String) : List String :=
  match project with
  | some p => if p = "" then [argsFilePath] else ["--project", p]
  | none => [argsFilePath]

/-- The function `doLintForProject`; `args = none` is the call `doLintForProject(null, _)`
of the command before any buffer was entered, which throws on `args.filePath`. -/
def doLintForProject (h : Host) (s : PluginState) (args : Option BufferEvent)
    (autoFix : Bool) : PluginState × List Effect :=
  match args with
  | none => (s, [])
  | some buf =>
    match buf.filePath with
    | none => (s, [])
    | some argsFilePath =>
      if argsFilePath = "" then (s, [])
      else
        let s := { s with lastArgs := some buf }
        let currentWorkingDirectory := getCurrentWorkingDirectory h argsFilePath
        match getLintConfig h currentWorkingDirectory with
        | .rejects => (s, [.consoleWarn noConfigWarning])
        | .resolves none => (s, [.consoleWarn noConfigWarning])
        | .resolves (some filePath) =>
          if filePath = "" then (s, [.consoleWarn noConfigWarning])
          else
            match getTsConfig h currentWorkingDirectory with
            | .rejects => (s, [])
            | .resolves project =>
              let processArgs := lintTarget project argsFilePath
              match executeTsLint h filePath processArgs currentWorkingDirectory autoFix with
              | (effects, none) => (s, effects)
              | (effects, some errors) =>
                let (s, published) := reconcile s errors
                (s, effects ++ published)

/-- The subscriber of `onBufferEnter`. -/
def onBufferEnter (h : Host) (s : PluginState) (buf : BufferEvent) :
    PluginState × List Effect :=
  doLintForProject h s (some buf) false

/-- The subscribers of `onBufferSaved`, `onBufferChanged` and `onModeChanged`. -/
def onBufferSaved (h : Host) (s : PluginState) (buf : BufferEvent) :
    PluginState × List Effect :=
  doLintForFile h s buf

/-- The command `tslint.fix`. -/
def tslintFix (h : Host) (s : PluginState) : PluginState × List Effect :=
  doLintForProject h s s.lastArgs true

/-! ## Histories of lint runs -/

/-- Which kind of lint run made a `setErrors` call. -/
inductive Origin where
  | projectWide
  | singleFile
  deriving DecidableEq, Repr

/-- One `setErrors` call as the editor receives it, with the kind of run that made it. -/
structure Published where
  origin : Origin
  file : String
  errors : JsValue
  deriving DecidableEq, Repr

/-- The `setErrors` calls of a trace, tagged with their origin. -/
def publishedBy (origin : Origin) (trace : List Effect) : List Published :=
  trace.filterMap fun e =>
    match e with
    | .setErrors _ file errors _ => some ⟨origin, file, errors⟩
    | _ => none

/-- A lint run that reached its publish step: a project-wide run with its linter output, or
a single-file run with the path linted and the sequence `fileErrors` found for it. -/
inductive LintRun where
  | project (lintErrors : List Failure)
  | singleFile (filePath : String) (fileErrors : List Diagnostic)

/-- One successful run applied to the module state and to the log of calls received by the
editor. -/
def LintRun.apply (h : Host) (st : PluginState × List Published) :
    LintRun → PluginState × List Published
  | .project lintErrors =>
    match groupErrors h lintErrors with
    | some errors =>
      ((reconcile st.1 errors).1, st.2 ++ publishedBy .projectWide (reconcile st.1 errors).2)
    | none => st
  | .singleFile filePath fileErrors =>
    ((reconcileSingleFile st.1 filePath fileErrors).1,
      st.2 ++ publishedBy .singleFile (reconcileSingleFile st.1 filePath fileErrors).2)

/-- The state and the log after a sequence of successful runs from the load-time state. -/
def runLints (h : Host) (runs : List LintRun) : PluginState × List Published :=
  runs.foldl (LintRun.apply h) (PluginState.initial, [])

/-- The call most recently received by the editor for the file `f`. -/
def lastPublished (f : String) (log : List Published) : Option Published :=
  (log.filter fun p => decide (p.file = f)).getLast?

/-- A stored value reflects a published one: they are equal, or the stored value is the
cleared marker and the published sequence is empty. -/
def reflects (stored published : JsValue) : Bool :=
  decide (stored = published) || (decide (stored = .null) && decide (published = .array []))

/-- The stored value of `f` reflects the call most recently received for `f`. -/
def reflectsLast (st : PluginState × List Published) (f : String) : Bool :=
  match lastPublished f st.2 with
  | some p => reflects (st.1.lastErrors.get f) p.errors
  | none => false

/-- The invariant of the data model: every key of `lastErrors` holds what was last sent to
the editor for it. -/
def StoredIsLastPublished (st : PluginState × List Published) : Prop :=
  ∀ f ∈ st.1.lastErrors.ownKeys, reflectsLast st f = true

/-- A call made by a single-file run that found diagnostics; `doLintForFile` does not record
it in `lastErrors`. -/
def unrecorded (p : Published) : Bool :=
  decide (p.origin = .singleFile) &&
    match p.errors with
    | .array (_ :: _) => true
    | _ => false

/-- The call most recently received by the editor for the file `f` among the recorded
ones: those of project-wide runs and those of single-file runs that found nothing. -/
def lastRecorded (f : String) (log : List Published) : Option Published :=
  (log.filter fun p => decide (p.file = f) && !unrecorded p).getLast?

/-- The file `f` has received a recorded call, and its stored value reflects the most
recent one. -/
def reflectsLastRecorded (st : PluginState × List Published) (f : String) : Bool :=
  match lastRecorded f st.2 with
  | some p => reflects (st.1.lastErrors.get f) p.errors
  | none => false

/-! ## Sample data -/

/-- One diagnostic of rule `no-any`. -/
def sampleDiagnostic : Diagnostic :=
  { message := "[no-any] Any not allowed"
    range := { start := { line := 1, character := 2 }, end_ := { line := 1, character := 10 } }
    severity := 2
    type := none }

/-- The fabricated linter output entry of the round trip. -/
def sampleFailure : Failure :=
  { ruleName := "no-any"
    failure := "Any not allowed"
    name := "a.ts"
    startPosition := { line := 1, character := 2 }
    endPosition := { line := 1, character := 10 } }

/-- A linter output entry for the file the linter was pointed at. -/
def failureIn (file : String) : Failure :=
  { ruleName := "semicolon"
    failure := "Missing semicolon"
    name := file
    startPosition := { line := 0, character := 7 }
    endPosition := { line := 0, character := 7 } }

/-- A host with the files `/proj/tslint.json`, `/proj/src/app.js` and `/proj/README.md` and
no `tsconfig.json`; the linter reports one failure in the file it is pointed at, under the
name it was given. -/
def sampleHost : Host :=
  { extname := fun p =>
      if p = "/proj/src/app.js" then ".js" else if p = "/proj/README.md" then ".md" else ""
    dirname := fun p =>
      if p = "/proj/src/app.js" then "/proj/src" else if p = "/proj/README.md" then "/proj"
      else "."
    basename := fun p =>
      if p = "/proj/src/app.js" then "app.js" else if p = "/proj/README.md" then "README.md"
      else p
    normalize := fun p => p
    tslintPath := "/plugin/node_modules/tslint/lib/tslint-cli.js"
    findUp := fun name _ =>
      if name = "tslint.json" then .resolves (some "/proj/tslint.json") else .resolves none
    execNodeScript := fun _ args _ =>
      match args.getLast? with
      | some file => .stdout [failureIn file]
      | none => .stdout [] }

/-- The host `sampleHost` with a `/proj/tsconfig.json` added and a linter that reports one
failure in `/proj/src/app.js`. -/
def projectHost : Host :=
  { sampleHost with
    findUp := fun name _ =>
      if name = "tslint.json" then .resolves (some "/proj/tslint.json")
      else .resolves (some "/proj/tsconfig.json")
    execNodeScript := fun _ _ _ => .stdout [failureIn "/proj/src/app.js"] }

/-- A host in which no `tslint.json` exists. -/
def bareHost : Host :=
  { sampleHost with findUp := fun _ _ => .resolves none }

/-- A host whose linter reports, for a single-file run, the bare file name. -/
def fileNameHost : Host :=
  { sampleHost with execNodeScript := fun _ _ _ => .stdout [failureIn "app.js"] }

/-- The host `fileNameHost` after `/proj/src/app.js` was edited: a single-file run now
reports the `no-any` failure under the bare file name. -/
def editedHost : Host :=
  { sampleHost with
    execNodeScript := fun _ _ _ => .stdout [{ sampleFailure with name := "app.js" }] }

/-- A host with a file `/proj/constructor` whose linter reports one failure under the bare
file name. -/
def constructorHost : Host :=
  { sampleHost with
    dirname := fun _ => "/proj"
    execNodeScript := fun _ _ _ => .stdout [failureIn "constructor"] }

/-- A project-wide run that reports `/proj/src/app.js`, then a single-file run of that file
that finds another diagnostic. -/
def staleHistory : List LintRun :=
  [.project [failureIn "/proj/src/app.js"], .singleFile "/proj/src/app.js" [sampleDiagnostic]]

/-- The dictionary `{"a.ts": [sampleDiagnostic]}`. -/
def sampleSet : JsObject := JsObject.empty.set "a.ts" (.array [sampleDiagnostic])

/-! ## The linter arguments and the grouping of the linter output, stated directly -/

/-- The argument list of the interface description:
`[--fix?] --force --format json --config <configPath>` followed by the target. -/
def linterArguments (autoFix : Bool) (configPath : String) (target : List String) :
    List String :=
  (if autoFix then ["--fix"] else []) ++ ["--force", "--format", "json", "--config", configPath]
    ++ target


/-- The diagnostic an entry of the linter output stands for:
`{message: '[' + ruleName + '] ' + failure, severity: 2, range, type: null}`. -/
def toDiagnostic (e : Failure) : Diagnostic :=
  { message := "[" ++ e.ruleName ++ "] " ++ e.failure
    range :=
      { start := { line := e.startPosition.line, character := e.startPosition.character }
        end_ := { line := e.endPosition.line, character := e.endPosition.character } }
    severity := 2
    type := none }

/-- The entries of the linter output whose normalized name is `file`, in output order, each
as a diagnostic. -/
def diagnosticsFor (h : Host) (lintErrors : List Failure) (file : String) : List Diagnostic :=
  (lintErrors.filter fun e => decide (h.normalize e.name = file)).map toDiagnostic

/-- The dictionary the reduce builds when no lookup falls through to the prototype. -/
def groupAll (h : Host) (lintErrors : List Failure) : JsObject :=
  (lintErrors.map (toErrorWithFileName h)).foldl pushStep JsObject.empty

/-- The object pushed by `pushStep` for an intermediate entry. -/
def pushedObject (curr : ErrorWithFileName) : Diagnostic :=
  { message := curr.message, range := curr.range, severity := curr.severity,
    type := curr.type }

/-- The objects pushed under the key `file` while reducing `es`. -/
def pushedFor (es : List ErrorWithFileName) (file : String) : List Diagnostic :=
  (es.filter fun e => decide (e.file = file)).map pushedObject

/-! ## Facts about dictionaries -/

theorem JsObject.keys_perm (o : JsObject) : o.keys.Perm o.ownKeys := by
  unfold JsObject.keys
  exact ((List.perm_insertionSort _ _).append_right _).trans
    (List.filter_append_perm _ _)

theorem JsObject.mem_keys (o : JsObject) (k : String) : k ∈ o.keys ↔ k ∈ o.ownKeys :=
  (JsObject.keys_perm o).mem_iff

theorem JsObject.keys_nodup (o : JsObject) : o.keys.Nodup :=
  (JsObject.keys_perm o).nodup_iff.mpr o.nodupKeys

theorem JsObject.lookup_of_not_mem (k : String) (l : List (String × JsValue))
    (h : k ∉ l.map Prod.fst) : JsObject.lookup k l = .undefined := by
  induction l with
  | nil => rfl
  | cons hd tl ih =>
    obtain ⟨k', v⟩ := hd
    simp only [List.map_cons, List.mem_cons, not_or] at h
    have hk : ¬ k' = k := fun e => h.1 e.symm
    simp only [JsObject.lookup, hk, if_false]
    exact ih h.2

theorem JsObject.get_of_not_mem (o : JsObject) (k : String) (h : k ∉ o.ownKeys) :
    o.get k = .undefined :=
  JsObject.lookup_of_not_mem k o.entries h

theorem JsObject.mem_of_truthy (o : JsObject) (k : String) (h : (o.get k).truthy = true) :
    k ∈ o.ownKeys := by
  by_contra hk
  rw [JsObject.get_of_not_mem o k hk] at h
  exact Bool.noConfusion h

theorem JsObject.lookup_replace_self (k : String) (v : JsValue)
    (l : List (String × JsValue)) (h : k ∈ l.map Prod.fst) :
    JsObject.lookup k (l.map fun e => if e.1 = k then (e.1, v) else e) = v := by
  induction l with
  | nil => cases h
  | cons hd tl ih =>
    by_cases hk : hd.1 = k
    · simp [JsObject.lookup, hk]
    · have hmem : k ∈ tl.map Prod.fst := by
        rcases List.mem_cons.mp h with e | e
        · exact absurd e.symm hk
        · exact e
      simp only [List.map_cons, hk, if_false, JsObject.lookup]
      exact ih hmem

theorem JsObject.lookup_replace_other (k f : String) (v : JsValue)
    (l : List (String × JsValue)) (hf : f ≠ k) :
    JsObject.lookup f (l.map fun e => if e.1 = k then (e.1, v) else e)
      = JsObject.lookup f l := by
  induction l with
  | nil => rfl
  | cons hd tl ih =>
    by_cases hk : hd.1 = k
    · have hkf : ¬ hd.1 = f := fun e => hf (e.symm.trans hk)
      have hkf' : ¬ k = f := fun e => hf e.symm
      simp only [List.map_cons, hk, if_true, JsObject.lookup, hkf', if_false]
      exact ih
    · by_cases hkf : hd.1 = f
      · simp [JsObject.lookup, hkf, hf]
      · simp only [List.map_cons, hk, if_false, JsObject.lookup, hkf]
        exact ih

theorem JsObject.lookup_append_new (k f : String) (v : JsValue)
    (l : List (String × JsValue)) (hk : k ∉ l.map Prod.fst) :
    JsObject.lookup f (l ++ [(k, v)]) = if f = k then v else JsObject.lookup f l := by
  induction l with
  | nil =>
    by_cases hf : f = k
    · simp [JsObject.lookup, hf]
    · have : ¬ k = f := fun e => hf e.symm
      simp [JsObject.lookup, hf, this]
  | cons hd tl ih =>
    obtain ⟨k', w⟩ := hd
    simp only [List.map_cons, List.mem_cons, not_or] at hk
    have hkk : ¬ k' = k := fun e => hk.1 e.symm
    by_cases hkf : k' = f
    · have hfk : ¬ f = k := fun e => hkk (hkf.trans e)
      simp [JsObject.lookup, hkf, hfk]
    · simp only [List.cons_append, JsObject.lookup, hkf, if_false]
      exact ih hk.2

theorem JsObject.get_set (o : JsObject) (k f : String) (v : JsValue) :
    (o.set k v).get f = if f = k then v else o.get f := by
  unfold JsObject.set JsObject.get
  by_cases h : k ∈ o.entries.map Prod.fst
  · simp only [h, dif_pos]
    by_cases hf : f = k
    · subst hf
      simp only [if_true]
      exact JsObject.lookup_replace_self f v o.entries h
    · simp only [hf, if_false]
      exact JsObject.lookup_replace_other k f v o.entries hf
  · simp only [h, dif_neg, not_false_eq_true]
    exact JsObject.lookup_append_new k f v o.entries h

theorem JsObject.mem_ownKeys_set (o : JsObject) (k f : String) (v : JsValue) :
    f ∈ (o.set k v).ownKeys ↔ f = k ∨ f ∈ o.ownKeys := by
  unfold JsObject.set JsObject.ownKeys
  by_cases h : k ∈ o.entries.map Prod.fst
  · simp only [h, dif_pos]
    have hfst : (o.entries.map fun e => if e.1 = k then (e.1, v) else e).map Prod.fst
        = o.entries.map Prod.fst := by
      rw [List.map_map]
      apply List.map_congr_left
      intro e _
      by_cases he : e.1 = k <;> simp [he]
    rw [hfst]
    constructor
    · intro hf; exact Or.inr hf
    · rintro (hf | hf)
      · rw [hf]; exact h
      · exact hf
  · simp only [h, dif_neg, not_false_eq_true, List.map_append, List.mem_append, List.map_cons,
      List.map_nil, List.mem_singleton]
    exact or_comm

theorem filter_eq_singleton_of_nodup (l : List String) (a : String) (hl : l.Nodup)
    (ha : a ∈ l) : l.filter (fun x => decide (x = a)) = [a] := by
  induction l with
  | nil => cases ha
  | cons hd tl ih =>
    rw [List.nodup_cons] at hl
    by_cases hhd : hd = a
    · subst hhd
      have htl : tl.filter (fun x => decide (x = hd)) = [] := by
        rw [List.filter_eq_nil_iff]
        intro x hx
        have : x ≠ hd := fun e => hl.1 (e ▸ hx)
        simpa using this
      simp [List.filter_cons, htl]
    · have hmem : a ∈ tl := by
        rcases List.mem_cons.mp ha with e | e
        · exact absurd e.symm hhd
        · exact e
      simp [List.filter_cons, hhd, ih hl.2 hmem]

theorem callsFor_append (f : String) (xs ys : List Effect) :
    callsFor f (xs ++ ys) = callsFor f xs ++ callsFor f ys := by
  simp [callsFor, List.filter_append]

theorem callsFor_sendUpdated_of_not_mem (errors : JsObject) (f : String)
    (h : f ∉ errors.ownKeys) : callsFor f (sendUpdated errors) = [] := by
  unfold callsFor sendUpdated
  rw [List.filter_eq_nil_iff]
  intro e he
  obtain ⟨k, hk, rfl⟩ := List.mem_map.mp he
  have : k ≠ f := fun e => h (e ▸ (JsObject.mem_keys errors k).mp hk)
  simpa using this

theorem callsFor_sendCleared (lastErrors errors : JsObject) (f : String) :
    callsFor f (sendCleared lastErrors errors) =
      if (lastErrors.get f).truthy && !(errors.get f).truthy then
        [Effect.setErrors "tslint-ts" f (.array []) "yellow"]
      else [] := by
  unfold callsFor sendCleared
  rw [List.filter_map, List.filter_filter]
  have hfun : (fun a => (((fun e : Effect =>
        match e with
        | .setErrors _ file _ _ => decide (file = f)
        | _ => false) ∘ fun g => Effect.setErrors "tslint-ts" g (.array []) "yellow") a &&
        ((lastErrors.get a).truthy && !(errors.get a).truthy)))
      = fun a => (decide (a = f) && ((lastErrors.get f).truthy && !(errors.get f).truthy)) := by
    funext a
    by_cases ha : a = f
    · subst ha; simp
    · simp [ha]
  rw [hfun]
  by_cases hc : ((lastErrors.get f).truthy && !(errors.get f).truthy) = true
  · have hmem : f ∈ lastErrors.keys := by
      rw [JsObject.mem_keys]
      apply JsObject.mem_of_truthy
      simp only [Bool.and_eq_true] at hc
      exact hc.1
    simp only [hc, Bool.and_true, if_true]
    rw [filter_eq_singleton_of_nodup _ _ (JsObject.keys_nodup lastErrors) hmem]
    rfl
  · have hc' : ((lastErrors.get f).truthy && !(errors.get f).truthy) = false := by
      simpa using hc
    simp [hc']

theorem sendCleared_self (errors : JsObject) : sendCleared errors errors = [] := by
  unfold sendCleared
  rw [List.map_eq_nil_iff, List.filter_eq_nil_iff]
  intro f _
  cases (errors.get f).truthy <;> simp

/-! ## The grouping performed by `executeTsLint` -/

theorem get_pushStep (prev : JsObject) (curr : ErrorWithFileName) (f : String) :
    (pushStep prev curr).get f =
      if f = curr.file then .array ((prev.get curr.file).orEmpty ++ [pushedObject curr])
      else prev.get f := by
  unfold pushStep
  simp only [JsObject.get_set, if_true]
  by_cases hf : f = curr.file
  · simp only [hf, if_true, JsValue.orEmpty, pushedObject]
  · simp only [hf, if_false]

theorem mem_ownKeys_pushStep (prev : JsObject) (curr : ErrorWithFileName) (f : String) :
    f ∈ (pushStep prev curr).ownKeys ↔ f = curr.file ∨ f ∈ prev.ownKeys := by
  unfold pushStep
  simp only [JsObject.mem_ownKeys_set]
  tauto

theorem get_foldl_pushStep (es : List ErrorWithFileName) (o : JsObject) (f : String) :
    (es.foldl pushStep o).get f =
      if pushedFor es f = [] then o.get f
      else .array ((o.get f).orEmpty ++ pushedFor es f) := by
  induction es generalizing o with
  | nil => simp [pushedFor]
  | cons e rest ih =>
    rw [List.foldl_cons, ih, get_pushStep]
    by_cases hf : f = e.file
    · subst hf
      have hcons : pushedFor (e :: rest) e.file = pushedObject e :: pushedFor rest e.file := by
        simp [pushedFor]
      rw [hcons]
      by_cases hrest : pushedFor rest e.file = []
      · simp [hrest]
      · simp [hrest, JsValue.orEmpty]
    · have hfe : ¬ e.file = f := fun h => hf h.symm
      have hcons : pushedFor (e :: rest) f = pushedFor rest f := by
        simp [pushedFor, hfe]
      rw [hcons]
      simp only [hf, if_false]

theorem mem_ownKeys_foldl_pushStep (es : List ErrorWithFileName) (o : JsObject)
    (f : String) :
    f ∈ (es.foldl pushStep o).ownKeys ↔ f ∈ o.ownKeys ∨ ∃ e ∈ es, e.file = f := by
  induction es generalizing o with
  | nil => simp
  | cons e rest ih =>
    rw [List.foldl_cons, ih, mem_ownKeys_pushStep]
    constructor
    · rintro ((h | h) | ⟨x, hx, hxf⟩)
      · exact Or.inr ⟨e, List.mem_cons_self _ _, h.symm⟩
      · exact Or.inl h
      · exact Or.inr ⟨x, List.mem_cons_of_mem _ hx, hxf⟩
    · rintro (h | ⟨x, hx, hxf⟩)
      · exact Or.inl (Or.inr h)
      · rcases List.mem_cons.mp hx with hxe | hxr
        · subst hxe
          exact Or.inl (Or.inl hxf.symm)
        · exact Or.inr ⟨x, hxr, hxf⟩

theorem pushedFor_map (h : Host) (lintErrors : List Failure) (f : String) :
    pushedFor (lintErrors.map (toErrorWithFileName h)) f = diagnosticsFor h lintErrors f := by
  induction lintErrors with
  | nil => rfl
  | cons e rest ih =>
    unfold pushedFor diagnosticsFor at *
    by_cases he : h.normalize e.name = f
    · simp only [List.map_cons, List.filter_cons, toErrorWithFileName, he, decide_True,
        if_true, List.cons.injEq]
      exact ⟨rfl, ih⟩
    · simp only [List.map_cons, List.filter_cons, toErrorWithFileName, he, decide_False]
      exact ih

theorem diagnosticsFor_eq_nil_iff (h : Host) (lintErrors : List Failure) (f : String) :
    diagnosticsFor h lintErrors f = [] ↔ ¬ ∃ e ∈ lintErrors, h.normalize e.name = f := by
  unfold diagnosticsFor
  rw [List.map_eq_nil_iff, List.filter_eq_nil_iff]
  simp

theorem get_groupAll (h : Host) (lintErrors : List Failure) (file : String) :
    (groupAll h lintErrors).get file =
      if diagnosticsFor h lintErrors file = [] then JsValue.undefined
      else JsValue.array (diagnosticsFor h lintErrors file) := by
  unfold groupAll
  rw [get_foldl_pushStep, pushedFor_map]
  by_cases hd : diagnosticsFor h lintErrors file = []
  · simp only [hd, if_true]
    rfl
  · simp only [hd, if_false]
    rfl

theorem orEmpty_get_groupAll (h : Host) (lintErrors : List Failure) (file : String) :
    ((groupAll h lintErrors).get file).orEmpty = diagnosticsFor h lintErrors file := by
  rw [get_groupAll]
  by_cases hd : diagnosticsFor h lintErrors file = []
  · simp [hd, JsValue.orEmpty]
  · simp [hd, JsValue.orEmpty]

theorem mem_ownKeys_groupAll (h : Host) (lintErrors : List Failure) (file : String) :
    file ∈ (groupAll h lintErrors).ownKeys ↔
      ∃ e ∈ lintErrors, h.normalize e.name = file := by
  unfold groupAll
  rw [mem_ownKeys_foldl_pushStep]
  simp [JsObject.ownKeys, JsObject.empty, toErrorWithFileName]

theorem reduceAll_of_clean (es : List ErrorWithFileName) (o : JsObject)
    (hclean : ∀ e ∈ es, e.file ∉ objectPrototypeMembers) :
    reduceAll es o = some (es.foldl pushStep o) := by
  induction es generalizing o with
  | nil => rfl
  | cons e rest ih =>
    have he : e.file ∉ objectPrototypeMembers := hclean e (List.mem_cons_self _ _)
    have hstep : reduceStep o e = some (pushStep o e) := by
      simp [reduceStep, JsObject.inherits, he]
    simp only [reduceAll, hstep, List.foldl_cons]
    exact ih _ fun x hx => hclean x (List.mem_cons_of_mem _ hx)

theorem reduceAll_of_inherited (es : List ErrorWithFileName) (o : JsObject)
    (hown : ∀ k ∈ o.ownKeys, k ∉ objectPrototypeMembers)
    (hex : ∃ e ∈ es, e.file ∈ objectPrototypeMembers) :
    reduceAll es o = none := by
  induction es generalizing o with
  | nil =>
    obtain ⟨e, he, _⟩ := hex
    cases he
  | cons e rest ih =>
    by_cases he : e.file ∈ objectPrototypeMembers
    · have hnot : e.file ∉ o.ownKeys := fun hmem => hown _ hmem he
      have hstep : reduceStep o e = none := by
        simp [reduceStep, JsObject.inherits, he, hnot]
      simp only [reduceAll, hstep]
    · have hstep : reduceStep o e = some (pushStep o e) := by
        simp [reduceStep, JsObject.inherits, he]
      simp only [reduceAll, hstep]
      apply ih
      · intro k hk
        rcases (mem_ownKeys_pushStep o e k).mp hk with hke | hko
        · rw [hke]; exact he
        · exact hown k hko
      · obtain ⟨x, hx, hxp⟩ := hex
        rcases List.mem_cons.mp hx with hxe | hxr
        · rw [hxe] at hxp; exact absurd hxp he
        · exact ⟨x, hxr, hxp⟩

theorem groupErrors_of_clean (h : Host) (lintErrors : List Failure)
    (hclean : ∀ e ∈ lintErrors, h.normalize e.name ∉ objectPrototypeMembers) :
    groupErrors h lintErrors = some (groupAll h lintErrors) := by
  unfold groupErrors groupAll
  apply reduceAll_of_clean
  intro e he
  obtain ⟨x, hx, rfl⟩ := List.mem_map.mp he
  exact hclean x hx

theorem groupErrors_of_inherited (h : Host) (lintErrors : List Failure)
    (hex : ∃ e ∈ lintErrors, h.normalize e.name ∈ objectPrototypeMembers) :
    groupErrors h lintErrors = none := by
  unfold groupErrors
  apply reduceAll_of_inherited
  · intro k hk
    cases hk
  · obtain ⟨e, he, hp⟩ := hex
    exact ⟨toErrorWithFileName h e, List.mem_map_of_mem _ he, hp⟩

theorem groupErrors_eq_some (h : Host) (lintErrors : List Failure) (errors : JsObject)
    (hres : groupErrors h lintErrors = some errors) :
    errors = groupAll h lintErrors ∧
      ∀ e ∈ lintErrors, h.normalize e.name ∉ objectPrototypeMembers := by
  by_cases hex : ∃ e ∈ lintErrors, h.normalize e.name ∈ objectPrototypeMembers
  · rw [groupErrors_of_inherited h lintErrors hex] at hres
    cases hres
  · have hclean : ∀ e ∈ lintErrors, h.normalize e.name ∉ objectPrototypeMembers :=
      fun e he hp => hex ⟨e, he, hp⟩
    rw [groupErrors_of_clean h lintErrors hclean] at hres
    injection hres with hres
    exact ⟨hres.symm, hclean⟩

/-- C5, the part the code keeps and the input on which it fails: when no reported name
normalizes to the name of a member of `Object.prototype`, the promise of `executeTsLint`
resolves to the dictionary that maps every normalized file name of the array to the
diagnostics of exactly the entries with that name, in output order, with no other key and no
empty sequence, and the `no-any` entry for `a.ts` gives the diagnostic of the round trip;
when some name does, the reduce throws and the promise never settles: for the one entry named
`constructor` nothing is resolved, and entering the buffer `/proj/constructor` runs the
linter and publishes nothing. -/
theorem executeTsLint_groups_unless_inherited :
    (∀ (h : Host) (lintErrors : List Failure),
      (∀ e ∈ lintErrors, h.normalize e.name ∉ objectPrototypeMembers) →
      ∃ errors, groupErrors h lintErrors = some errors ∧
        (∀ file, errors.get file =
          if diagnosticsFor h lintErrors file = [] then JsValue.undefined
          else JsValue.array (diagnosticsFor h lintErrors file)) ∧
        (∀ file, file ∈ errors.ownKeys ↔ ∃ e ∈ lintErrors, h.normalize e.name = file) ∧
        (∀ file, file ∈ errors.ownKeys → errors.get file ≠ JsValue.array []) ∧
        (∀ configPath args cwd autoFix,
          h.execNodeScript h.tslintPath (processArgs configPath args autoFix) cwd
              = LinterOutcome.stdout lintErrors →
            (executeTsLint h configPath args cwd autoFix).2 = some errors)) ∧
    (∀ (h : Host) (lintErrors : List Failure),
      (∃ e ∈ lintErrors, h.normalize e.name ∈ objectPrototypeMembers) →
      groupErrors h lintErrors = none ∧
        (∀ configPath args cwd autoFix,
          h.execNodeScript h.tslintPath (processArgs configPath args autoFix) cwd
              = LinterOutcome.stdout lintErrors →
            (executeTsLint h configPath args cwd autoFix).2 = none)) ∧
    (∀ (h : Host), h.normalize "a.ts" = "a.ts" →
      (groupErrors h [sampleFailure]).map JsObject.entries
        = some [("a.ts", JsValue.array [sampleDiagnostic])]) ∧
    groupErrors sampleHost [failureIn "constructor"] = none ∧
    (onBufferEnter constructorHost PluginState.initial ⟨some "/proj/constructor"⟩).2 =
      [Effect.execNodeScript "/plugin/node_modules/tslint/lib/tslint-cli.js"
        ["--force", "--format", "json", "--config", "/proj/tslint.json", "/proj/constructor"]
        "/proj"] := by
  refine ⟨?_, ?_, ?_, by decide, by decide⟩
  · intro h lintErrors hclean
    have hget := get_groupAll h lintErrors
    have hkeys := mem_ownKeys_groupAll h lintErrors
    have hres := groupErrors_of_clean h lintErrors hclean
    refine ⟨groupAll h lintErrors, hres, hget, hkeys, ?_, ?_⟩
    · intro file hfile
      have hne : diagnosticsFor h lintErrors file ≠ [] := by
        intro hnil
        exact (diagnosticsFor_eq_nil_iff h lintErrors file).mp hnil ((hkeys file).mp hfile)
      rw [hget, if_neg hne]
      intro heq
      injection heq with heq
      exact hne heq
    · intro configPath args cwd autoFix hout
      simp only [executeTsLint, hout, hres]
  · intro h lintErrors hex
    have hres := groupErrors_of_inherited h lintErrors hex
    refine ⟨hres, ?_⟩
    intro configPath args cwd autoFix hout
    simp only [executeTsLint, hout, hres]
  · intro h hnorm
    have hclean : ∀ e ∈ [sampleFailure], h.normalize e.name ∉ objectPrototypeMembers := by
      intro e he
      rw [List.mem_singleton] at he
      subst he
      show h.normalize "a.ts" ∉ objectPrototypeMembers
      rw [hnorm]
      decide
    rw [groupErrors_of_clean h [sampleFailure] hclean]
    simp [groupAll, pushStep, toErrorWithFileName, sampleFailure, sampleDiagnostic,
      JsObject.set, JsObject.get, JsObject.lookup, JsObject.empty, JsValue.orEmpty, hnorm]

/-! ## Project-wide reconciliation -/

/-- The project-wide lint once the configuration is found and the promise of
`executeTsLint` has resolved to `errors`: the linter call followed by the publish step. -/
theorem doLintForProject_success (h : Host) (s : PluginState) (fp cfg : String)
    (autoFix : Bool) (project : Option String) (lintErrors : List Failure)
    (errors : JsObject) (hfp : fp ≠ "")
    (hcfg : getLintConfig h (getCurrentWorkingDirectory h fp) = .resolves (some cfg))
    (hcfgne : cfg ≠ "")
    (hts : getTsConfig h (getCurrentWorkingDirectory h fp) = .resolves project)
    (hout : h.execNodeScript h.tslintPath (processArgs cfg (lintTarget project fp) autoFix)
      (getCurrentWorkingDirectory h fp) = .stdout lintErrors)
    (hres : groupErrors h lintErrors = some errors) :
    doLintForProject h s (some ⟨some fp⟩) autoFix =
      ((reconcile { s with lastArgs := some ⟨some fp⟩ } errors).1,
        Effect.execNodeScript h.tslintPath (processArgs cfg (lintTarget project fp) autoFix)
            (getCurrentWorkingDirectory h fp) ::
          (reconcile { s with lastArgs := some ⟨some fp⟩ } errors).2) := by
  simp only [doLintForProject, hfp, if_false, hcfg, hcfgne, hts, executeTsLint, hout, hres]
  rfl

theorem count_reconcile (s : PluginState) (newSet : JsObject) (path : String)
    (hpath : path ∈ newSet.ownKeys) :
    (reconcile s newSet).2.count
      (Effect.setErrors "tslint-ts" path (newSet.get path) "yellow") = 1 := by
  have hinj : Function.Injective
      (fun f => Effect.setErrors "tslint-ts" f (newSet.get f) "yellow") := by
    intro a b hab
    injection hab
  have hsent : (sendUpdated newSet).count
      (Effect.setErrors "tslint-ts" path (newSet.get path) "yellow") = 1 := by
    unfold sendUpdated
    rw [List.count_map_of_injective _ _ hinj]
    exact List.count_eq_one_of_mem (JsObject.keys_nodup newSet)
      ((JsObject.mem_keys newSet path).mpr hpath)
  have hcleared : (sendCleared s.lastErrors newSet).count
      (Effect.setErrors "tslint-ts" path (newSet.get path) "yellow") = 0 := by
    rw [List.count_eq_zero]
    intro hmem
    unfold sendCleared at hmem
    obtain ⟨f, hf, heq⟩ := List.mem_map.mp hmem
    injection heq with _ hfile hval _
    subst hfile
    rw [List.mem_filter] at hf
    have := hf.2
    rw [← hval] at this
    simp [JsValue.truthy] at this
  show (sendUpdated newSet ++ sendCleared s.lastErrors newSet).count _ = 1
  rw [List.count_append, hsent, hcleared]

/-- C1: for every prior state and every new set, the publish step of `doLintForProject`
calls `setErrors('tslint-ts', path, newSet[path], 'yellow')` exactly once for every key of
the new set, whatever the prior state held for that path, and leaves `lastErrors` equal to
the new set; so does `doLintForProject` itself whenever the configuration is found and the
promise of `executeTsLint` resolves, the new set being the dictionary it resolves to. -/
theorem reconcile_publishes_every_key (s : PluginState) (newSet : JsObject) :
    (∀ path, path ∈ newSet.ownKeys →
      (reconcile s newSet).2.count
        (Effect.setErrors "tslint-ts" path (newSet.get path) "yellow") = 1) ∧
    (reconcile s newSet).1.lastErrors = newSet ∧
    (∀ (h : Host) (fp cfg : String) (autoFix : Bool) (project : Option String)
        (lintErrors : List Failure) (errors : JsObject),
      fp ≠ "" →
      getLintConfig h (getCurrentWorkingDirectory h fp) = .resolves (some cfg) →
      cfg ≠ "" →
      getTsConfig h (getCurrentWorkingDirectory h fp) = .resolves project →
      h.execNodeScript h.tslintPath (processArgs cfg (lintTarget project fp) autoFix)
        (getCurrentWorkingDirectory h fp) = .stdout lintErrors →
      groupErrors h lintErrors = some errors →
      (∀ path, path ∈ errors.ownKeys →
        (doLintForProject h s (some ⟨some fp⟩) autoFix).2.count
          (Effect.setErrors "tslint-ts" path (errors.get path) "yellow") = 1) ∧
      (doLintForProject h s (some ⟨some fp⟩) autoFix).1.lastErrors = errors) := by
  refine ⟨fun path hpath => count_reconcile s newSet path hpath, rfl, ?_⟩
  intro h fp cfg autoFix project lintErrors errors hfp hcfg hcfgne hts hout hres
  rw [doLintForProject_success h s fp cfg autoFix project lintErrors errors hfp hcfg hcfgne hts
    hout hres]
  refine ⟨?_, rfl⟩
  intro path hpath
  rw [List.count_cons]
  simp only [beq_iff_eq, reduceCtorEq, if_false, Nat.add_zero]
  exact count_reconcile _ _ path hpath

/-- C2: when `F` held a non-empty sequence before and is not a key of the new set, the calls
of the publish step for `F` are exactly one `setErrors(F, [])`. -/
theorem reconcile_clears_missing_file (s : PluginState) (newSet : JsObject) (F : String)
    (ds : List Diagnostic) (hprior : s.lastErrors.get F = .array ds) (_hne : ds ≠ [])
    (habsent : F ∉ newSet.ownKeys) :
    callsFor F (reconcile s newSet).2 =
      [Effect.setErrors "tslint-ts" F (.array []) "yellow"] := by
  show callsFor F (sendUpdated newSet ++ sendCleared s.lastErrors newSet) = _
  rw [callsFor_append, callsFor_sendUpdated_of_not_mem newSet F habsent,
    callsFor_sendCleared, hprior, JsObject.get_of_not_mem newSet F habsent]
  rfl

/-- The publish step makes no call for a file that is falsy in the prior state and is not
a key of the new set. -/
theorem callsFor_reconcile_of_falsy (s : PluginState) (newSet : JsObject) (F : String)
    (hfalsy : (s.lastErrors.get F).truthy = false) (habsent : F ∉ newSet.ownKeys) :
    callsFor F (reconcile s newSet).2 = [] := by
  show callsFor F (sendUpdated newSet ++ sendCleared s.lastErrors newSet) = _
  rw [callsFor_append, callsFor_sendUpdated_of_not_mem newSet F habsent,
    callsFor_sendCleared, hfalsy]
  rfl

/-- C4: running the publish step twice with the same new set, the second run makes exactly
the calls `setErrors(path, newSet[path])` for the keys of the new set, no clearing call, and
ends in the state the first run ended in. -/
theorem reconcile_idempotent (s : PluginState) (newSet : JsObject) :
    (reconcile (reconcile s newSet).1 newSet).2 =
      newSet.keys.map (fun f => Effect.setErrors "tslint-ts" f (newSet.get f) "yellow") ∧
    (reconcile (reconcile s newSet).1 newSet).1 = (reconcile s newSet).1 := by
  refine ⟨?_, rfl⟩
  show sendUpdated newSet ++ sendCleared newSet newSet = _
  rw [sendCleared_self, List.append_nil]
  rfl

/-! ## The entry points -/

theorem processArgs_eq (configPath : String) (args : List String) (autoFix : Bool) :
    processArgs configPath args autoFix = linterArguments autoFix configPath args := by
  cases autoFix <;> simp [processArgs, linterArguments]

theorem linterCalls_executeTsLint (h : Host) (configPath : String) (args : List String)
    (cwd : String) (autoFix : Bool) :
    linterCalls (executeTsLint h configPath args cwd autoFix).1 =
      [Effect.execNodeScript h.tslintPath (processArgs configPath args autoFix) cwd] := by
  simp only [executeTsLint]
  split <;> simp [linterCalls]

theorem linterCalls_reconcile (s : PluginState) (errors : JsObject) :
    linterCalls (reconcile s errors).2 = [] := by
  unfold linterCalls reconcile sendUpdated sendCleared
  rw [List.filter_eq_nil_iff]
  intro e he
  rcases List.mem_append.mp he with h1 | h1 <;>
    obtain ⟨f, _, rfl⟩ := List.mem_map.mp h1 <;> simp

theorem linterCalls_reconcileSingleFile (s : PluginState) (P : String) (D : List Diagnostic) :
    linterCalls (reconcileSingleFile s P D).2 = [] := by
  unfold reconcileSingleFile
  split <;> simp [linterCalls]

theorem linterCalls_append (xs ys : List Effect) :
    linterCalls (xs ++ ys) = linterCalls xs ++ linterCalls ys := by
  simp [linterCalls, List.filter_append]

/-- Lint arguments of a project-wide run once the configuration is found. -/
theorem doLintForProject_linterCalls (h : Host) (s : PluginState) (fp cfg : String)
    (autoFix : Bool) (hfp : fp ≠ "")
    (hcfg : getLintConfig h (getCurrentWorkingDirectory h fp) = .resolves (some cfg))
    (hcfgne : cfg ≠ "") (project : Option String)
    (hts : getTsConfig h (getCurrentWorkingDirectory h fp) = .resolves project) :
    linterCalls (doLintForProject h s (some ⟨some fp⟩) autoFix).2 =
      [Effect.execNodeScript h.tslintPath (processArgs cfg (lintTarget project fp) autoFix)
        (getCurrentWorkingDirectory h fp)] := by
  simp only [doLintForProject, hfp, if_false, hcfg, hcfgne, hts]
  have hcalls := linterCalls_executeTsLint h cfg (lintTarget project fp)
    (getCurrentWorkingDirectory h fp) autoFix
  rcases hrun : executeTsLint h cfg (lintTarget project fp)
    (getCurrentWorkingDirectory h fp) autoFix with ⟨effects, _ | errors⟩
  · rw [hrun] at hcalls
    exact hcalls
  · rw [hrun] at hcalls
    dsimp only at hcalls ⊢
    rw [linterCalls_append, hcalls, linterCalls_reconcile, List.append_nil]

theorem publishCalls_append (xs ys : List Effect) :
    publishCalls (xs ++ ys) = publishCalls xs ++ publishCalls ys := by
  simp [publishCalls, List.filter_append]

theorem publishCalls_executeTsLint (h : Host) (configPath : String) (args : List String)
    (cwd : String) (autoFix : Bool) :
    publishCalls (executeTsLint h configPath args cwd autoFix).1 = [] := by
  simp only [executeTsLint]
  split <;> simp [publishCalls]

/-- The single-file lint once the file is admitted, the configuration found and the promise
of `executeTsLint` has resolved: the linter call followed by the publish step. -/
theorem doLintForFile_success (h : Host) (s : PluginState) (P cfg : String)
    (lintErrors : List Failure) (hP : P ≠ "") (hadm : shouldNotLint h P = false)
    (hcfg : getLintConfig h (getCurrentWorkingDirectory h P) = .resolves (some cfg))
    (hcfgne : cfg ≠ "")
    (hout : h.execNodeScript h.tslintPath (processArgs cfg [P] false)
      (getCurrentWorkingDirectory h P) = .stdout lintErrors)
    (hclean : ∀ e ∈ lintErrors, h.normalize e.name ∉ objectPrototypeMembers) :
    doLintForFile h s ⟨some P⟩ =
      ((reconcileSingleFile s P (diagnosticsFor h lintErrors (h.basename P))).1,
        Effect.execNodeScript h.tslintPath (processArgs cfg [P] false)
            (getCurrentWorkingDirectory h P) ::
          (reconcileSingleFile s P (diagnosticsFor h lintErrors (h.basename P))).2) := by
  simp only [doLintForFile, hP, if_false, hadm, Bool.false_eq_true, hcfg, hcfgne,
    executeTsLint, hout, groupErrors_of_clean h lintErrors hclean, orEmpty_get_groupAll]
  rfl

/-- The single-file lint when the reduce of `executeTsLint` throws: the linter call and
nothing else. -/
theorem doLintForFile_unsettled (h : Host) (s : PluginState) (P cfg : String)
    (lintErrors : List Failure) (hP : P ≠ "") (hadm : shouldNotLint h P = false)
    (hcfg : getLintConfig h (getCurrentWorkingDirectory h P) = .resolves (some cfg))
    (hcfgne : cfg ≠ "")
    (hout : h.execNodeScript h.tslintPath (processArgs cfg [P] false)
      (getCurrentWorkingDirectory h P) = .stdout lintErrors)
    (hex : ∃ e ∈ lintErrors, h.normalize e.name ∈ objectPrototypeMembers) :
    doLintForFile h s ⟨some P⟩ =
      (s, [Effect.execNodeScript h.tslintPath (processArgs cfg [P] false)
        (getCurrentWorkingDirectory h P)]) := by
  simp only [doLintForFile, hP, if_false, hadm, Bool.false_eq_true, hcfg, hcfgne,
    executeTsLint, hout, groupErrors_of_inherited h lintErrors hex]

/-- C6, the part the code keeps and the input on which it fails: `shouldNotLint` is `true`
exactly when the extension is outside the allow-list and `doLintForFile` then does nothing;
`doLintForProject` does not consult it: entering the buffer `/proj/README.md` in a project
without `tsconfig.json` runs the linter on that file and publishes its result. -/
theorem doLintForProject_ignores_allow_list :
    (∀ (h : Host) (file : String),
      shouldNotLint h file = true ↔ h.extname file ∉ allowedFileTypes) ∧
    (∀ (h : Host) (s : PluginState) (file : String),
      shouldNotLint h file = true → doLintForFile h s ⟨some file⟩ = (s, [])) ∧
    shouldNotLint sampleHost "/proj/README.md" = true ∧
    (onBufferEnter sampleHost PluginState.initial ⟨some "/proj/README.md"⟩).2 =
      [Effect.execNodeScript "/plugin/node_modules/tslint/lib/tslint-cli.js"
          ["--force", "--format", "json", "--config", "/proj/tslint.json", "/proj/README.md"]
          "/proj",
        Effect.setErrors "tslint-ts" "/proj/README.md"
          (.array [toDiagnostic (failureIn "/proj/README.md")]) "yellow"] := by
  refine ⟨?_, ?_, by decide, by decide⟩
  · intro h file
    simp [shouldNotLint]
  · intro h s file hno
    unfold doLintForFile
    by_cases hfile : file = ""
    · simp [hfile]
    · simp [hfile, hno]

/-- C7: once the lint configuration `cfg` is found, a project-wide lint hands the linter
`[--fix?] --force --format json --config cfg` followed by `--project tsconfigPath` when a
`tsconfig.json` was found and by the file path when none was found; a single-file lint of an
admitted file hands it `--force --format json --config cfg` followed by the file path,
without `--fix`. -/
theorem linter_argument_list (h : Host) (s : PluginState) (fp cfg : String) (autoFix : Bool)
    (hfp : fp ≠ "")
    (hcfg : getLintConfig h (getCurrentWorkingDirectory h fp) = .resolves (some cfg))
    (hcfgne : cfg ≠ "") :
    (∀ tsconfigPath,
      getTsConfig h (getCurrentWorkingDirectory h fp) = .resolves (some tsconfigPath) →
      tsconfigPath ≠ "" →
      linterCalls (doLintForProject h s (some ⟨some fp⟩) autoFix).2 =
        [Effect.execNodeScript h.tslintPath
          (linterArguments autoFix cfg ["--project", tsconfigPath])
          (getCurrentWorkingDirectory h fp)]) ∧
    (getTsConfig h (getCurrentWorkingDirectory h fp) = .resolves none →
      linterCalls (doLintForProject h s (some ⟨some fp⟩) autoFix).2 =
        [Effect.execNodeScript h.tslintPath (linterArguments autoFix cfg [fp])
          (getCurrentWorkingDirectory h fp)]) ∧
    (shouldNotLint h fp = false →
      linterCalls (doLintForFile h s ⟨some fp⟩).2 =
        [Effect.execNodeScript h.tslintPath
          ["--force", "--format", "json", "--config", cfg, fp]
          (getCurrentWorkingDirectory h fp)]) := by
  refine ⟨?_, ?_, ?_⟩
  · intro tsconfigPath hts hne
    rw [doLintForProject_linterCalls h s fp cfg autoFix hfp hcfg hcfgne _ hts, processArgs_eq]
    simp [lintTarget, hne]
  · intro hts
    rw [doLintForProject_linterCalls h s fp cfg autoFix hfp hcfg hcfgne _ hts, processArgs_eq]
    rfl
  · intro hadm
    simp only [doLintForFile, hfp, if_false, hadm, Bool.false_eq_true, hcfg, hcfgne]
    have hcalls := linterCalls_executeTsLint h cfg [fp] (getCurrentWorkingDirectory h fp) false
    rcases hrun : executeTsLint h cfg [fp] (getCurrentWorkingDirectory h fp) false with
      ⟨effects, _ | errors⟩
    · rw [hrun] at hcalls
      exact hcalls
    · rw [hrun] at hcalls
      dsimp only at hcalls ⊢
      rw [linterCalls_append, hcalls, linterCalls_reconcileSingleFile, List.append_nil]
      rfl

/-- C7 at sample hosts: with `tsconfig.json` and auto-fix, without `tsconfig.json`, and for a
single file. -/
theorem linter_argument_list_witness :
    linterCalls (doLintForProject projectHost PluginState.initial
        (some ⟨some "/proj/src/app.js"⟩) true).2 =
      [Effect.execNodeScript "/plugin/node_modules/tslint/lib/tslint-cli.js"
        ["--fix", "--force", "--format", "json", "--config", "/proj/tslint.json", "--project",
          "/proj/tsconfig.json"] "/proj/src"] ∧
    linterCalls (doLintForProject sampleHost PluginState.initial
        (some ⟨some "/proj/src/app.js"⟩) false).2 =
      [Effect.execNodeScript "/plugin/node_modules/tslint/lib/tslint-cli.js"
        ["--force", "--format", "json", "--config", "/proj/tslint.json", "/proj/src/app.js"]
        "/proj/src"] ∧
    linterCalls (doLintForFile sampleHost PluginState.initial ⟨some "/proj/src/app.js"⟩).2 =
      [Effect.execNodeScript "/plugin/node_modules/tslint/lib/tslint-cli.js"
        ["--force", "--format", "json", "--config", "/proj/tslint.json", "/proj/src/app.js"]
        "/proj/src"] :=
  ⟨(linter_argument_list projectHost PluginState.initial "/proj/src/app.js" "/proj/tslint.json"
      true (by decide) (by decide) (by decide)).1 "/proj/tsconfig.json" (by decide) (by decide),
    (linter_argument_list sampleHost PluginState.initial "/proj/src/app.js" "/proj/tslint.json"
      false (by decide) (by decide) (by decide)).2.1 (by decide),
    (linter_argument_list sampleHost PluginState.initial "/proj/src/app.js" "/proj/tslint.json"
      false (by decide) (by decide) (by decide)).2.2 (by decide)⟩

/-- C8: when the search for `tslint.json` fails or finds nothing, neither a single-file lint
nor a project-wide lint calls the linter or `setErrors`, each logs at most the warning, and
`lastErrors` is what it was. -/
theorem no_config_aborts (h : Host) (s : PluginState) (fp : String) (autoFix : Bool)
    (hcfg : getLintConfig h (getCurrentWorkingDirectory h fp) = .rejects ∨
      getLintConfig h (getCurrentWorkingDirectory h fp) = .resolves none) :
    linterCalls (doLintForFile h s ⟨some fp⟩).2 = [] ∧
    publishCalls (doLintForFile h s ⟨some fp⟩).2 = [] ∧
    (∀ e ∈ (doLintForFile h s ⟨some fp⟩).2, e = Effect.consoleWarn noConfigWarning) ∧
    (doLintForFile h s ⟨some fp⟩).1 = s ∧
    linterCalls (doLintForProject h s (some ⟨some fp⟩) autoFix).2 = [] ∧
    publishCalls (doLintForProject h s (some ⟨some fp⟩) autoFix).2 = [] ∧
    (∀ e ∈ (doLintForProject h s (some ⟨some fp⟩) autoFix).2,
      e = Effect.consoleWarn noConfigWarning) ∧
    (doLintForProject h s (some ⟨some fp⟩) autoFix).1.lastErrors = s.lastErrors := by
  have hfile : doLintForFile h s ⟨some fp⟩ = (s, []) ∨
      doLintForFile h s ⟨some fp⟩ = (s, [Effect.consoleWarn noConfigWarning]) := by
    unfold doLintForFile
    by_cases hfp : fp = ""
    · left; simp [hfp]
    · by_cases hno : shouldNotLint h fp = true
      · left; simp [hfp, hno]
      · right
        rcases hcfg with hc | hc <;> simp [hfp, hno, hc]
  have hproj : doLintForProject h s (some ⟨some fp⟩) autoFix = (s, []) ∨
      doLintForProject h s (some ⟨some fp⟩) autoFix =
        ({ s with lastArgs := some ⟨some fp⟩ }, [Effect.consoleWarn noConfigWarning]) := by
    unfold doLintForProject
    by_cases hfp : fp = ""
    · left; simp [hfp]
    · right
      rcases hcfg with hc | hc <;> simp [hfp, hc]
  refine ⟨?_, ?_, ?_, ?_, ?_, ?_, ?_, ?_⟩
  · rcases hfile with e | e <;> rw [e] <;> simp [linterCalls]
  · rcases hfile with e | e <;> rw [e] <;> simp [publishCalls]
  · rcases hfile with e | e <;> rw [e] <;> simp
  · rcases hfile with e | e <;> rw [e]
  · rcases hproj with e | e <;> rw [e] <;> simp [linterCalls]
  · rcases hproj with e | e <;> rw [e] <;> simp [publishCalls]
  · rcases hproj with e | e <;> rw [e] <;> simp
  · rcases hproj with e | e <;> rw [e]

/-- C8 at a host without `tslint.json`, from a state that holds diagnostics. -/
theorem no_config_aborts_witness :
    (doLintForFile bareHost ⟨sampleSet, none⟩ ⟨some "/proj/src/app.js"⟩).2 =
      [Effect.consoleWarn noConfigWarning] ∧
    linterCalls (doLintForProject bareHost ⟨sampleSet, none⟩
      (some ⟨some "/proj/src/app.js"⟩) true).2 = [] ∧
    publishCalls (doLintForProject bareHost ⟨sampleSet, none⟩
      (some ⟨some "/proj/src/app.js"⟩) true).2 = [] ∧
    (doLintForProject bareHost ⟨sampleSet, none⟩
      (some ⟨some "/proj/src/app.js"⟩) true).1.lastErrors = sampleSet :=
  ⟨by decide,
    (no_config_aborts bareHost ⟨sampleSet, none⟩ "/proj/src/app.js" true
      (Or.inr (by decide))).2.2.2.2.1,
    (no_config_aborts bareHost ⟨sampleSet, none⟩ "/proj/src/app.js" true
      (Or.inr (by decide))).2.2.2.2.2.1,
    (no_config_aborts bareHost ⟨sampleSet, none⟩ "/proj/src/app.js" true
      (Or.inr (by decide))).2.2.2.2.2.2.2⟩

/-- C9: a single-file lint of an admitted path `P` whose linter output yields the sequence
`D` for `P` makes exactly one `setErrors` call, `setErrors(P, D)`; when `D` is empty the
entry of `P` becomes `null`; the entry of every other path is what it was; and when `D` is
not empty the whole state is what it was. No `D` is computed when a reported name is that
of a member of `Object.prototype`: then there is no call and the state is what it was. -/
theorem doLintForFile_publishes_one_file (h : Host) (s : PluginState) (P cfg : String)
    (lintErrors : List Failure) (hP : P ≠ "") (hadm : shouldNotLint h P = false)
    (hcfg : getLintConfig h (getCurrentWorkingDirectory h P) = .resolves (some cfg))
    (hcfgne : cfg ≠ "")
    (hout : h.execNodeScript h.tslintPath (processArgs cfg [P] false)
      (getCurrentWorkingDirectory h P) = .stdout lintErrors) :
    ((∀ e ∈ lintErrors, h.normalize e.name ∉ objectPrototypeMembers) →
      publishCalls (doLintForFile h s ⟨some P⟩).2 =
        [Effect.setErrors "tslint-ts" P
          (.array (diagnosticsFor h lintErrors (h.basename P))) "yellow"] ∧
      (diagnosticsFor h lintErrors (h.basename P) = [] →
        (doLintForFile h s ⟨some P⟩).1.lastErrors.get P = .null) ∧
      (∀ q, q ≠ P →
        (doLintForFile h s ⟨some P⟩).1.lastErrors.get q = s.lastErrors.get q ∧
        (q ∈ (doLintForFile h s ⟨some P⟩).1.lastErrors.ownKeys ↔
          q ∈ s.lastErrors.ownKeys)) ∧
      (diagnosticsFor h lintErrors (h.basename P) ≠ [] →
        (doLintForFile h s ⟨some P⟩).1 = s)) ∧
    ((∃ e ∈ lintErrors, h.normalize e.name ∈ objectPrototypeMembers) →
      publishCalls (doLintForFile h s ⟨some P⟩).2 = [] ∧
      (doLintForFile h s ⟨some P⟩).1 = s) := by
  constructor
  · intro hclean
    rw [doLintForFile_success h s P cfg lintErrors hP hadm hcfg hcfgne hout hclean]
    generalize diagnosticsFor h lintErrors (h.basename P) = D
    unfold reconcileSingleFile
    by_cases hD : D = []
    · subst hD
      refine ⟨by simp [publishCalls], ?_, ?_, ?_⟩
      · intro _
        simp [JsObject.get_set]
      · intro q hq
        simp [JsObject.get_set, JsObject.mem_ownKeys_set, hq]
      · intro hne
        exact absurd rfl hne
    · have hlen : ¬ D.length = 0 := fun e => hD (List.length_eq_zero.mp e)
      refine ⟨by simp [publishCalls, hlen], ?_, ?_, ?_⟩
      · intro e
        exact absurd e hD
      · intro q _
        simp [hlen]
      · intro _
        simp [hlen]
  · intro hex
    rw [doLintForFile_unsettled h s P cfg lintErrors hP hadm hcfg hcfgne hout hex]
    exact ⟨by simp [publishCalls], rfl⟩

/-- C9 at a host whose linter reports one failure under the bare file name: one publish for
the linted path, state untouched. -/
theorem doLintForFile_publishes_one_file_witness :
    publishCalls
        (doLintForFile fileNameHost ⟨sampleSet, none⟩ ⟨some "/proj/src/app.js"⟩).2 =
      [Effect.setErrors "tslint-ts" "/proj/src/app.js"
        (.array [toDiagnostic (failureIn "app.js")]) "yellow"] :=
  ((doLintForFile_publishes_one_file fileNameHost ⟨sampleSet, none⟩ "/proj/src/app.js"
    "/proj/tslint.json" [failureIn "app.js"] (by decide) (by decide) (by decide) (by decide)
    (by decide)).1 (by decide)).1

/-! ## The state invariant -/

theorem callsFor_sendUpdated_of_mem (errors : JsObject) (f : String)
    (h : f ∈ errors.ownKeys) :
    callsFor f (sendUpdated errors) =
      [Effect.setErrors "tslint-ts" f (errors.get f) "yellow"] := by
  unfold callsFor sendUpdated
  rw [List.filter_map]
  have hfun : ((fun e : Effect =>
        match e with
        | .setErrors _ file _ _ => decide (file = f)
        | _ => false) ∘ fun g => Effect.setErrors "tslint-ts" g (errors.get g) "yellow")
      = fun a => decide (a = f) := by
    funext a
    rfl
  rw [hfun, filter_eq_singleton_of_nodup _ _ (JsObject.keys_nodup errors)
    ((JsObject.mem_keys errors f).mpr h)]
  rfl

theorem filter_publishedBy (origin : Origin) (f : String) (trace : List Effect) :
    (publishedBy origin trace).filter (fun p => decide (p.file = f)) =
      publishedBy origin (callsFor f trace) := by
  induction trace with
  | nil => rfl
  | cons e rest ih =>
    cases e with
    | setErrors source file errors color =>
      by_cases hf : file = f
      · simp only [publishedBy, callsFor] at ih ⊢
        simp [List.filterMap_cons, List.filter_cons, hf, ih]
      · simp only [publishedBy, callsFor] at ih ⊢
        simp [List.filterMap_cons, List.filter_cons, hf, ih]
    | consoleWarn m =>
      simp only [publishedBy, callsFor] at ih ⊢
      simp [List.filterMap_cons, List.filter_cons, ih]
    | consoleError =>
      simp only [publishedBy, callsFor] at ih ⊢
      simp [List.filterMap_cons, List.filter_cons, ih]
    | execNodeScript a b c =>
      simp only [publishedBy, callsFor] at ih ⊢
      simp [List.filterMap_cons, List.filter_cons, ih]

theorem lastRecorded_append (f : String) (log new : List Published) :
    lastRecorded f (log ++ new) = (lastRecorded f new).or (lastRecorded f log) := by
  unfold lastRecorded
  rw [List.filter_append, List.getLast?_append]

theorem filter_recorded_projectWide (f : String) (trace : List Effect) :
    (publishedBy .projectWide trace).filter
        (fun p => decide (p.file = f) && !unrecorded p) =
      publishedBy .projectWide (callsFor f trace) := by
  rw [← filter_publishedBy]
  apply List.filter_congr
  intro p hp
  have horigin : p.origin = .projectWide := by
    unfold publishedBy at hp
    rw [List.mem_filterMap] at hp
    obtain ⟨e, _, he⟩ := hp
    cases e <;> simp at he
    rw [← he]
  simp [unrecorded, horigin]

theorem truthy_get_groupAll (h : Host) (lintErrors : List Failure) (f : String)
    (hf : f ∈ (groupAll h lintErrors).ownKeys) :
    ((groupAll h lintErrors).get f).truthy = true := by
  have hex := (mem_ownKeys_groupAll h lintErrors f).mp hf
  have hne : diagnosticsFor h lintErrors f ≠ [] := fun hnil =>
    (diagnosticsFor_eq_nil_iff h lintErrors f).mp hnil hex
  rw [get_groupAll, if_neg hne]
  rfl

theorem reflects_self (v : JsValue) : reflects v v = true := by
  simp [reflects]

theorem lastRecorded_project (s : PluginState) (errors : JsObject) (f : String)
    (hf : f ∈ errors.ownKeys) (htruthy : (errors.get f).truthy = true) :
    lastRecorded f (publishedBy .projectWide (reconcile s errors).2) =
      some ⟨.projectWide, f, errors.get f⟩ := by
  unfold lastRecorded
  rw [filter_recorded_projectWide]
  show (publishedBy .projectWide (callsFor f
    (sendUpdated errors ++ sendCleared s.lastErrors errors))).getLast? = _
  rw [callsFor_append, callsFor_sendUpdated_of_mem _ _ hf, callsFor_sendCleared, htruthy]
  simp [publishedBy]

theorem reconcileSingleFile_calls (s : PluginState) (P : String) (D : List Diagnostic) :
    (reconcileSingleFile s P D).2 = [Effect.setErrors "tslint-ts" P (.array D) "yellow"] := by
  unfold reconcileSingleFile
  split <;> rfl

theorem reconcileSingleFile_found (s : PluginState) (P : String) (d : Diagnostic)
    (ds : List Diagnostic) : (reconcileSingleFile s P (d :: ds)).1 = s := by
  simp [reconcileSingleFile]

theorem lastRecorded_singleFile (s : PluginState) (P f : String) (D : List Diagnostic) :
    lastRecorded f (publishedBy .singleFile (reconcileSingleFile s P D).2) =
      if P = f ∧ D = [] then some ⟨.singleFile, P, .array []⟩ else none := by
  rw [reconcileSingleFile_calls]
  by_cases hPf : P = f
  · cases D with
    | nil => simp [lastRecorded, publishedBy, unrecorded, hPf]
    | cons d ds => simp [lastRecorded, publishedBy, unrecorded, hPf]
  · simp [lastRecorded, publishedBy, hPf]

/-- One run keeps the invariant. -/
theorem apply_keeps_recorded (h : Host) (st : PluginState × List Published) (r : LintRun)
    (hinv : ∀ f ∈ st.1.lastErrors.ownKeys, reflectsLastRecorded st f = true) :
    ∀ f ∈ (LintRun.apply h st r).1.lastErrors.ownKeys,
      reflectsLastRecorded (LintRun.apply h st r) f = true := by
  intro f hf
  cases r with
  | project lintErrors =>
    cases hres : groupErrors h lintErrors with
    | none =>
      simp only [LintRun.apply, hres] at hf ⊢
      exact hinv f hf
    | some errors =>
      simp only [LintRun.apply, hres] at hf ⊢
      have hf' : f ∈ errors.ownKeys := hf
      have htruthy : (errors.get f).truthy = true := by
        have heq := (groupErrors_eq_some h lintErrors errors hres).1
        rw [heq] at hf' ⊢
        exact truthy_get_groupAll h lintErrors f hf'
      unfold reflectsLastRecorded
      rw [lastRecorded_append, lastRecorded_project st.1 errors f hf' htruthy]
      simp only [Option.or_some]
      show reflects (errors.get f) (errors.get f) = true
      exact reflects_self _
  | singleFile P D =>
    simp only [LintRun.apply] at hf ⊢
    unfold reflectsLastRecorded
    rw [lastRecorded_append, lastRecorded_singleFile]
    by_cases hPf : P = f
    · subst hPf
      cases D with
      | nil => simp [reconcileSingleFile, JsObject.get_set, reflects]
      | cons d ds =>
        rw [reconcileSingleFile_found] at hf ⊢
        simp only [reduceCtorEq, and_false, if_false, Option.none_or]
        exact hinv P hf
    · have hfP : f ≠ P := fun e => hPf e.symm
      simp only [hPf, false_and, if_false, Option.none_or]
      have hkey : f ∈ st.1.lastErrors.ownKeys := by
        simp only [reconcileSingleFile] at hf
        split at hf
        · rcases (JsObject.mem_ownKeys_set _ _ _ _).mp hf with e | e
          · exact absurd e hfP
          · exact e
        · exact hf
      have hget : (reconcileSingleFile st.1 P D).1.lastErrors.get f = st.1.lastErrors.get f := by
        unfold reconcileSingleFile
        split
        · simp [JsObject.get_set, hfP]
        · rfl
      rw [hget]
      exact hinv f hkey

theorem lastRecorded_project_absent (s : PluginState) (errors : JsObject) (f : String)
    (hf : f ∉ errors.ownKeys) :
    lastRecorded f (publishedBy .projectWide (reconcile s errors).2) =
      if (s.lastErrors.get f).truthy then some ⟨.projectWide, f, .array []⟩ else none := by
  unfold lastRecorded
  rw [filter_recorded_projectWide]
  show (publishedBy .projectWide (callsFor f
    (sendUpdated errors ++ sendCleared s.lastErrors errors))).getLast? = _
  rw [callsFor_append, callsFor_sendUpdated_of_not_mem _ _ hf, callsFor_sendCleared,
    JsObject.get_of_not_mem errors f hf]
  cases (s.lastErrors.get f).truthy <;> simp [publishedBy, JsValue.truthy]

theorem eq_of_reflects_nonempty (stored : JsValue) (d : Diagnostic) (ds : List Diagnostic)
    (hr : reflects stored (.array (d :: ds)) = true) : stored = .array (d :: ds) := by
  simpa [reflects] using hr

/-- One run keeps the second half of the invariant: a file whose most recent recorded call
carries diagnostics is a key of `lastErrors`. -/
theorem apply_keeps_nonempty (h : Host) (st : PluginState × List Published) (r : LintRun)
    (hinv : ∀ f ∈ st.1.lastErrors.ownKeys, reflectsLastRecorded st f = true)
    (hkeys : ∀ f p d ds, lastRecorded f st.2 = some p → p.errors = .array (d :: ds) →
      f ∈ st.1.lastErrors.ownKeys) :
    ∀ f p d ds, lastRecorded f (LintRun.apply h st r).2 = some p →
      p.errors = .array (d :: ds) → f ∈ (LintRun.apply h st r).1.lastErrors.ownKeys := by
  intro f p d ds hlast hp
  cases r with
  | project lintErrors =>
    cases hres : groupErrors h lintErrors with
    | none =>
      simp only [LintRun.apply, hres] at hlast ⊢
      exact hkeys f p d ds hlast hp
    | some errors =>
      simp only [LintRun.apply, hres] at hlast ⊢
      show f ∈ errors.ownKeys
      by_contra hf
      rw [lastRecorded_append, lastRecorded_project_absent st.1 errors f hf] at hlast
      cases htruthy : (st.1.lastErrors.get f).truthy with
      | true =>
        simp only [htruthy, if_true, Option.or_some, Option.some.injEq] at hlast
        rw [← hlast] at hp
        simp at hp
      | false =>
        simp only [htruthy, Bool.false_eq_true, if_false, Option.none_or] at hlast
        have hkey := hkeys f p d ds hlast hp
        have hrefl := hinv f hkey
        unfold reflectsLastRecorded at hrefl
        rw [hlast] at hrefl
        simp only at hrefl
        rw [hp] at hrefl
        rw [eq_of_reflects_nonempty _ d ds hrefl] at htruthy
        simp [JsValue.truthy] at htruthy
  | singleFile P D =>
    simp only [LintRun.apply] at hlast ⊢
    rw [lastRecorded_append, lastRecorded_singleFile] at hlast
    by_cases hPf : P = f
    · subst hPf
      cases D with
      | nil =>
        simp only [and_self, if_true, Option.or_some, Option.some.injEq] at hlast
        rw [← hlast] at hp
        simp at hp
      | cons d' ds' =>
        rw [reconcileSingleFile_found]
        simp only [reduceCtorEq, and_false, if_false, Option.none_or] at hlast
        exact hkeys P p d ds hlast hp
    · simp only [hPf, false_and, if_false, Option.none_or] at hlast
      have hkey := hkeys f p d ds hlast hp
      simp only [reconcileSingleFile]
      split
      · exact (JsObject.mem_ownKeys_set _ _ _ _).mpr (Or.inr hkey)
      · exact hkey

theorem foldl_keeps_recorded (h : Host) (runs : List LintRun)
    (st : PluginState × List Published)
    (hinv : ∀ f ∈ st.1.lastErrors.ownKeys, reflectsLastRecorded st f = true)
    (hkeys : ∀ f p d ds, lastRecorded f st.2 = some p → p.errors = .array (d :: ds) →
      f ∈ st.1.lastErrors.ownKeys) :
    (∀ f ∈ (runs.foldl (LintRun.apply h) st).1.lastErrors.ownKeys,
      reflectsLastRecorded (runs.foldl (LintRun.apply h) st) f = true) ∧
    (∀ f p d ds, lastRecorded f (runs.foldl (LintRun.apply h) st).2 = some p →
      p.errors = .array (d :: ds) →
      f ∈ (runs.foldl (LintRun.apply h) st).1.lastErrors.ownKeys) := by
  induction runs generalizing st with
  | nil => exact ⟨hinv, hkeys⟩
  | cons r rest ih =>
    rw [List.foldl_cons]
    exact ih _ (apply_keeps_recorded h st r hinv) (apply_keeps_nonempty h st r hinv hkeys)

/-- C10, amended: after any sequence of project-wide and single-file runs from the load-time
state, every key of `lastErrors` has received a recorded call, one made by a project-wide run
or by a single-file run that found nothing, and its stored value reflects the most recent
recorded call for it (`null` standing for an empty sequence); a file whose most recent
recorded call carries diagnostics is stored with exactly that sequence; a single-file run
that finds diagnostics makes its one call and leaves the state as it is. -/
theorem stored_reflects_last_recorded (h : Host) (runs : List LintRun) :
    (∀ f ∈ (runLints h runs).1.lastErrors.ownKeys,
      reflectsLastRecorded (runLints h runs) f = true) ∧
    (∀ f p d ds, lastRecorded f (runLints h runs).2 = some p →
      p.errors = .array (d :: ds) →
      (runLints h runs).1.lastErrors.get f = .array (d :: ds)) ∧
    (∀ (s : PluginState) (P : String) (d : Diagnostic) (ds : List Diagnostic),
      (reconcileSingleFile s P (d :: ds)).1 = s ∧
      publishedBy .singleFile (reconcileSingleFile s P (d :: ds)).2 =
        [⟨.singleFile, P, .array (d :: ds)⟩]) := by
  have hboth : (∀ f ∈ (runLints h runs).1.lastErrors.ownKeys,
        reflectsLastRecorded (runLints h runs) f = true) ∧
      (∀ f p d ds, lastRecorded f (runLints h runs).2 = some p →
        p.errors = .array (d :: ds) → f ∈ (runLints h runs).1.lastErrors.ownKeys) := by
    unfold runLints
    apply foldl_keeps_recorded
    · intro f hf
      cases hf
    · intro f p d ds hlast _
      simp [lastRecorded] at hlast
  refine ⟨hboth.1, ?_, ?_⟩
  · intro f p d ds hlast hp
    have hrefl := hboth.1 f (hboth.2 f p d ds hlast hp)
    unfold reflectsLastRecorded at hrefl
    rw [hlast] at hrefl
    simp only at hrefl
    rw [hp] at hrefl
    exact eq_of_reflects_nonempty _ d ds hrefl
  · intro s P d ds
    refine ⟨reconcileSingleFile_found s P d ds, ?_⟩
    rw [reconcileSingleFile_calls]
    rfl

/-- C10, amended, at the history on which the stated invariant fails: the key
`/proj/src/app.js` is stored, the call last received for it is the single-file one, and the
stored value is that of the last recorded call, the project-wide one. -/
theorem stored_reflects_last_recorded_witness :
    "/proj/src/app.js" ∈ (runLints sampleHost staleHistory).1.lastErrors.ownKeys ∧
    lastRecorded "/proj/src/app.js" (runLints sampleHost staleHistory).2 =
      some ⟨.projectWide, "/proj/src/app.js",
        .array [toDiagnostic (failureIn "/proj/src/app.js")]⟩ ∧
    reflectsLastRecorded (runLints sampleHost staleHistory) "/proj/src/app.js" = true :=
  ⟨by decide, by decide,
    (stored_reflects_last_recorded sampleHost staleHistory).1 "/proj/src/app.js" (by decide)⟩

/-- C10 fails as stated: after a project-wide run that reports `/proj/src/app.js` and a
single-file run that finds another diagnostic in it, `lastErrors` still holds the first
sequence while the editor last received the second, both in the history of runs and through
the subscribers `onBufferEnter` and `onBufferSaved`; and a sequence published by a
single-file run alone is not stored at all, so a following project-wide run without that
file sends nothing for it. -/
theorem stored_is_not_last_published :
    ¬ StoredIsLastPublished (runLints sampleHost staleHistory) ∧
    (runLints sampleHost staleHistory).1.lastErrors.get "/proj/src/app.js" =
      .array [toDiagnostic (failureIn "/proj/src/app.js")] ∧
    lastPublished "/proj/src/app.js" (runLints sampleHost staleHistory).2 =
      some ⟨.singleFile, "/proj/src/app.js", .array [sampleDiagnostic]⟩ ∧
    ((onBufferEnter projectHost PluginState.initial ⟨some "/proj/src/app.js"⟩).1.lastErrors.get
      "/proj/src/app.js" = .array [toDiagnostic (failureIn "/proj/src/app.js")] ∧
    publishCalls (onBufferSaved editedHost
      (onBufferEnter projectHost PluginState.initial ⟨some "/proj/src/app.js"⟩).1
      ⟨some "/proj/src/app.js"⟩).2 =
      [Effect.setErrors "tslint-ts" "/proj/src/app.js" (.array [sampleDiagnostic]) "yellow"] ∧
    (onBufferSaved editedHost
      (onBufferEnter projectHost PluginState.initial ⟨some "/proj/src/app.js"⟩).1
      ⟨some "/proj/src/app.js"⟩).1.lastErrors.get "/proj/src/app.js" =
      .array [toDiagnostic (failureIn "/proj/src/app.js")]) ∧
    (runLints sampleHost
      [.singleFile "/proj/src/app.js" [sampleDiagnostic], .project []]).2 =
      [⟨.singleFile, "/proj/src/app.js", .array [sampleDiagnostic]⟩] := by
  refine ⟨?_, by decide, by decide, ⟨by decide, by decide, by decide⟩, by decide⟩
  intro hinv
  have hkey := hinv "/proj/src/app.js" (by decide)
  revert hkey
  decide

/-- C2 at a state that holds one diagnostic for `a.ts`. -/
theorem reconcile_clears_missing_file_witness :
    callsFor "a.ts" (reconcile ⟨sampleSet, none⟩ JsObject.empty).2 =
      [Effect.setErrors "tslint-ts" "a.ts" (.array []) "yellow"] :=
  reconcile_clears_missing_file ⟨sampleSet, none⟩ JsObject.empty "a.ts"
    [sampleDiagnostic] (by decide) (by decide) (by decide)

/-- The values stored after any sequence of runs are `null` or non-empty sequences: an empty
sequence is never stored. -/
theorem runLints_stores_no_empty_array (h : Host) (runs : List LintRun) (f : String) :
    (runLints h runs).1.lastErrors.get f ≠ .array [] := by
  unfold runLints
  have hgen : ∀ (st : PluginState × List Published),
      st.1.lastErrors.get f ≠ .array [] →
      (runs.foldl (LintRun.apply h) st).1.lastErrors.get f ≠ .array [] := by
    induction runs with
    | nil => intro st hst; exact hst
    | cons r rest ih =>
      intro st hst
      rw [List.foldl_cons]
      apply ih
      cases r with
      | project lintErrors =>
        cases hres : groupErrors h lintErrors with
        | none =>
          simp only [LintRun.apply, hres]
          exact hst
        | some errors =>
          simp only [LintRun.apply, hres]
          show errors.get f ≠ .array []
          rw [(groupErrors_eq_some h lintErrors errors hres).1, get_groupAll]
          by_cases hd : diagnosticsFor h lintErrors f = []
          · simp [hd]
          · simp [hd]
      | singleFile P D =>
        simp only [LintRun.apply, reconcileSingleFile]
        split
        · by_cases hfP : f = P
          · simp [JsObject.get_set, hfP]
          · simp only [JsObject.get_set, hfP, if_false]
            exact hst
        · exact hst
  apply hgen
  show JsObject.lookup f [] ≠ _
  simp [JsObject.lookup]

/-- C3: in every state the module reaches by its lint runs, when `F` is already clear (not a
key of `lastErrors`, or bound to the cleared marker `null`, or bound to an empty sequence)
and is not a key of the new set, the publish step of `doLintForProject` makes no `setErrors`
call for `F`. -/
theorem reconcile_skips_clear_file (h : Host) (runs : List LintRun)
    (lastArgs : Option BufferEvent) (newSet : JsObject) (F : String)
    (hclear : F ∉ (runLints h runs).1.lastErrors.ownKeys ∨
      (runLints h runs).1.lastErrors.get F = .null ∨
      (runLints h runs).1.lastErrors.get F = .array [])
    (habsent : F ∉ newSet.ownKeys) :
    callsFor F (reconcile ⟨(runLints h runs).1.lastErrors, lastArgs⟩ newSet).2 = [] := by
  apply callsFor_reconcile_of_falsy _ _ _ _ habsent
  show ((runLints h runs).1.lastErrors.get F).truthy = false
  rcases hclear with hkey | hnull | hempty
  · rw [JsObject.get_of_not_mem _ _ hkey]
    rfl
  · rw [hnull]
    rfl
  · exact absurd hempty (runLints_stores_no_empty_array h runs F)

/-- C3 after a single-file run that found nothing in `/proj/src/app.js`: the file holds the
cleared marker, and a new set that reports only `a.ts` brings no call for it. -/
theorem reconcile_skips_clear_file_witness :
    (runLints sampleHost [.singleFile "/proj/src/app.js" []]).1.lastErrors.get
      "/proj/src/app.js" = .null ∧
    callsFor "/proj/src/app.js"
      (reconcile ⟨(runLints sampleHost [.singleFile "/proj/src/app.js" []]).1.lastErrors, none⟩
        sampleSet).2 = [] :=
  ⟨by decide,
    reconcile_skips_clear_file sampleHost [.singleFile "/proj/src/app.js" []] none sampleSet
      "/proj/src/app.js" (Or.inr (Or.inl (by decide))) (by decide)⟩

end OniTslint
